import Mathlib

/-!
Verification of the duplicate-detection funnel and deletion planner of
src/duplicate_cleaner.py (necromindcom/r36s-duplicate-cleaner).

Shallow embedding conventions:
* A path is the list of its segments (Path := List String); os.path.basename
  of a directory path is its last segment.
* The directory tree visible to os.walk is an inductive FSTree; os.walk with
  topdown=True together with the dirs.clear() pruning of
  should_skip_directory is embedded as walkFiles.
* Every filesystem interaction of the scan is an oracle in the FS structure.
  Because the tree can change between the stages of one run, each distinct
  I/O site gets its own oracle: statSize1 (the phase-1 st_size stat),
  quickHash (result of calculate_quick_hash: some digest, or none when the
  try/except swallowed an OSError), statSize2 (the bare re-stat in the
  phase-2 regroup loop), fullHash (calculate_full_hash), mtime (the stat
  behind get_file_age at planning time) and statSize3 (the bare
  oldest_file.stat().st_size in analyze_duplicates).
* Python exceptions escaping a function are Except.error (); a swallowed
  per-file exception is an oracle returning none.
* Python dicts preserve insertion order, and defaultdict(list) grouping
  appends to the bucket of the key: embedded as upsertFold.
* multiprocessing.Pool.imap yields results in input order (order-preserving,
  unlike imap_unordered), and list(tqdm(it)) = list(it), so both branches of
  parallel_hash compute List.map of a pure per-file function.
* Python sorted(..., key=...) is a stable sort: embedded as the stable
  insertion sort sortByKey (an earlier element precedes a later one whenever
  their keys are equal).
* The float timestamps of st_mtime are modelled as Nat; the float('inf')
  returned by get_file_age on a failed stat is the top element of
  WithTop Nat.
* MD5 digests are abstract: an md5.update call absorbs bytes into the
  hashlib state, and hashlib guarantees m.update(a); m.update(b) is
  equivalent to m.update(a+b), so the absorbed state is the list of bytes
  fed so far and the digest is an opaque function of that list.  The
  truthiness test "if qhash:" of a hex digest is isSome: a 32-character hex
  string is never falsy.
-/

namespace DC

/-- A filesystem path, as the list of its segments. -/
abbrev Path : Type := List String

/-- A byte, as a natural number. -/
abbrev Byte : Type := Nat

/-- BUFFER_SIZE = 262144 (256KB) from src/duplicate_cleaner.py line 72. -/
def BUFFER_SIZE : Nat := 262144

/-- QUICK_HASH_SIZE = 8192 (8KB) from src/duplicate_cleaner.py line 73. -/
def QUICK_HASH_SIZE : Nat := 8192

/-! ### Digest functions (section 4.1; calculate_full_hash, lines 85-94)

The while-loop of calculate_full_hash reads BUFFER_SIZE-byte chunks until
f.read returns the empty (falsy) bytes object, calling md5.update on each
chunk.  readChunks models the sequence of chunks the loop reads from a file
whose whole content is the byte list bs. -/

/-- Chunks read by the loop: take n bytes at a time until the read
returns empty.  (f.read(n) returns min(n, remaining) bytes.) -/
def readChunks (n : Nat) (bs : List Byte) : List (List Byte) :=
  if bs.isEmpty ∨ n = 0 then []
  else bs.take n :: readChunks n (bs.drop n)
termination_by bs.length
decreasing_by
  rename_i hcond
  simp only [List.length_drop]
  rcases Nat.eq_zero_or_pos n with h0 | h0
  · exact absurd (Or.inr h0) hcond
  · have hne : bs ≠ [] := by
      intro hh
      exact hcond (Or.inl (by simp [hh]))
    have : 0 < bs.length := List.length_pos.mpr hne
    omega

/-- State of the incremental md5 after update on every chunk: the hashlib
contract makes the absorbed state the concatenation of all updates. -/
def absorbedState (chunks : List (List Byte)) : List Byte :=
  chunks.foldl (fun s c => s ++ c) []

/-- calculate_full_hash (lines 85-94), at the level of an already readable
content: md5 is initialised empty, updated chunk by chunk with
BUFFER_SIZE-byte reads, and the digest of the final state is returned.
The digest itself is an opaque function of the absorbed bytes. -/
def calculate_full_hash_chunked {D : Type} (digest : List Byte → D)
    (content : List Byte) : D :=
  digest (absorbedState (readChunks BUFFER_SIZE content))

/-- Modelled from the spec: the naive single-pass hash over the entire file
content ("hash over the entire file content"), against which the chunked
implementation is compared. -/
def wholeContentHash {D : Type} (digest : List Byte → D)
    (content : List Byte) : D :=
  digest content

theorem readChunks_eq (n : Nat) (bs : List Byte) :
    readChunks n bs =
      if bs.isEmpty ∨ n = 0 then []
      else bs.take n :: readChunks n (bs.drop n) := by
  rw [readChunks]

theorem absorbedState_readChunks (n : Nat) (hn : 0 < n) (bs : List Byte) :
    absorbedState (readChunks n bs) = bs := by
  have haux : ∀ (fuel : Nat) (bs : List Byte), bs.length ≤ fuel →
      ∀ (acc : List Byte),
        (readChunks n bs).foldl (fun s c => s ++ c) acc = acc ++ bs := by
    intro fuel
    induction fuel with
    | zero =>
      intro bs hlen acc
      have : bs = [] := List.length_eq_zero.mp (Nat.le_zero.mp hlen)
      subst this
      rw [readChunks_eq]
      simp
    | succ m ih =>
      intro bs hlen acc
      rw [readChunks_eq]
      by_cases hbs : bs.isEmpty
      · have : bs = [] := by simpa [List.isEmpty_iff] using hbs
        subst this
        simp
      · have hcond : ¬ (bs.isEmpty ∨ n = 0) := by
          rintro (h | h)
          · exact hbs h
          · omega
        rw [if_neg hcond]
        simp only [List.foldl_cons]
        have hlendrop : (bs.drop n).length ≤ m := by
          have hne : bs ≠ [] := by
            intro hh
            exact hbs (by simp [hh])
          have hpos : 0 < bs.length := List.length_pos.mpr hne
          have := List.length_drop n bs
          omega
        rw [ih (bs.drop n) hlendrop]
        rw [List.append_assoc, List.take_append_drop]
  unfold absorbedState
  simpa using haux bs.length bs le_rfl []

/-- C8.  The chunked full-content digest of calculate_full_hash (incremental
md5.update over 256KB reads) equals the single-pass digest of the whole
content, for every readable content and every digest function. -/
theorem claim_C8 {D : Type} (digest : List Byte → D) (content : List Byte) :
    calculate_full_hash_chunked digest content = wholeContentHash digest content := by
  unfold calculate_full_hash_chunked wholeContentHash
  rw [absorbedState_readChunks BUFFER_SIZE (by norm_num [BUFFER_SIZE]) content]

/-! ### Directory trees and os.walk (find_duplicates phase 1, lines 181-197) -/

/-- A directory of the scanned tree: its basename, the names of its regular
files, and its subdirectories. -/
inductive FSTree : Type where
  | node (name : String) (files : List String) (subdirs : List FSTree)

/-- Basename of a directory. -/
def FSTree.name : FSTree → String
  | .node n _ _ => n

/-- Regular files directly inside a directory. -/
def FSTree.files : FSTree → List String
  | .node _ fl _ => fl

/-- Subdirectories of a directory. -/
def FSTree.subdirs : FSTree → List FSTree
  | .node _ _ sd => sd

/-- should_skip_directory (lines 129-131): exact basename membership in the
skip set. -/
def should_skip_directory (basename : String) (skip_patterns : List String) : Prop :=
  basename ∈ skip_patterns

instance (b : String) (sk : List String) : Decidable (should_skip_directory b sk) := by
  unfold should_skip_directory
  infer_instance

/-! Embedding of the phase-1 traversal (lines 181-187): os.walk yields each
directory top-down; when should_skip_directory holds the code clears dirs
(children are never visited) and continues (its files are not recorded);
otherwise each file of the directory is visited in order, then the
subdirectories in order.  walkFiles is the ordered list of file paths the
phase-1 loop stats. -/
mutual

def walkFiles (skip : List String) (parent : Path) : FSTree → List Path
  | .node nm fl sd =>
    if should_skip_directory nm skip then []
    else
      fl.map (fun fn => parent ++ [nm, fn]) ++
        walkFilesList skip (parent ++ [nm]) sd

def walkFilesList (skip : List String) (parent : Path) : List FSTree → List Path
  | [] => []
  | t :: ts => walkFiles skip parent t ++ walkFilesList skip parent ts

end

theorem walkFilesList_eq_flatMap (skip : List String) (parent : Path)
    (ts : List FSTree) :
    walkFilesList skip parent ts = ts.flatMap (fun t => walkFiles skip parent t) := by
  induction ts with
  | nil => rfl
  | cons t ts ih => rw [walkFilesList, ih, List.flatMap_cons]

theorem walkFiles_eq (skip : List String) (parent : Path) (nm : String)
    (fl : List String) (sd : List FSTree) :
    walkFiles skip parent (.node nm fl sd) =
      if should_skip_directory nm skip then []
      else
        fl.map (fun fn => parent ++ [nm, fn]) ++
          sd.flatMap (fun s => walkFiles skip (parent ++ [nm]) s) := by
  rw [walkFiles, walkFilesList_eq_flatMap]

/-! ### Filesystem oracles -/

/-- Oracles for every distinct I/O site of one run.  Q is the type of quick
(8KB-prefix) digests, H of full-content digests.  A value none is a per-file
failure of that I/O call (OSError raised by the OS at that moment). -/
structure FS (Q H : Type) where
  statSize1 : Path → Option Nat
  quickHash : Path → Option Q
  statSize2 : Path → Option Nat
  fullHash : Path → Option H
  mtime : Path → Option Nat
  statSize3 : Path → Option Nat

/-! ### Ordered grouping (defaultdict(list) with insertion-ordered dict) -/

/-- Append v to the bucket of key k, creating the bucket at the end when the
key is new: exactly defaultdict(list)[k].append(v) on an insertion-ordered
dict. -/
def upsert {K α : Type} [DecidableEq K] (k : K) (v : α) :
    List (K × List α) → List (K × List α)
  | [] => [(k, [v])]
  | (k1, vs) :: rest =>
    if k1 = k then (k1, vs ++ [v]) :: rest
    else (k1, vs) :: upsert k v rest

/-- Build a grouped dict from a stream of (key, value) pairs. -/
def upsertFold {K α : Type} [DecidableEq K] (pairs : List (K × α)) :
    List (K × List α) :=
  pairs.foldl (fun acc kv => upsert kv.1 kv.2 acc) []

/-! ### Parallel executor (parallel_hash, lines 134-152) -/

/-- Pool(workers).imap(func, items, chunksize): imap dispatches chunks to
worker processes but yields results in input order, and func here is a pure
function of the path given the filesystem oracles, so the observable value
of list(pool.imap(func, items)) is the map of func over items.  The tqdm
wrapper is an identity on the yielded list. -/
def pool_imap {α β : Type} (func : α → β) (items : List α)
    (chunksize : Nat) : List β :=
  items.map func

/-- The single-threaded fallback list(map(func, items)) (again under an
identity tqdm wrapper). -/
def sequential_map {α β : Type} (func : α → β) (items : List α) : List β :=
  items.map func

/-- parallel_hash (lines 134-152): pool branch when multiprocessing is
available and workers > 1, sequential fallback otherwise. -/
def parallel_hash {α β : Type} (func : α → β) (items : List α)
    (mpAvailable : Bool) (workers : Nat) (chunksize : Nat) : List β :=
  if mpAvailable ∧ 1 < workers then pool_imap func items chunksize
  else sequential_map func items

/-! ### The duplicate funnel (find_duplicates, lines 155-252) -/

/-- hash_file_wrapper with hash_type=quick (lines 97-101): returns the
(path, calculate_quick_hash(path)) pair; a swallowed read error is none. -/
def hash_file_wrapper_quick {Q H : Type} (fs : FS Q H) (p : Path) :
    Path × Option Q :=
  (p, fs.quickHash p)

/-- hash_file_wrapper with hash_type=full (lines 97-101). -/
def hash_file_wrapper_full {Q H : Type} (fs : FS Q H) (p : Path) :
    Path × Option H :=
  (p, fs.fullHash p)

/-- Phase-1 output (lines 177-197): for each walked file, stat its size;
a failing stat is swallowed by the try/except and the file is dropped. -/
def scanPairs {Q H : Type} (fs : FS Q H) (walked : List Path) :
    List (Nat × Path) :=
  walked.filterMap (fun p => (fs.statSize1 p).map (fun s => (s, p)))

/-- size_map: Dict[int, List[Path]] built by the phase-1 loop. -/
def sizeMapOf {Q H : Type} (fs : FS Q H) (walked : List Path) :
    List (Nat × List Path) :=
  upsertFold (scanPairs fs walked)

/-- Files of all buckets having more than one member, bucket by bucket in
dict order: the comprehension shape shared by candidates (line 205) and
final_candidates (line 228). -/
def survivorsOf {K : Type} [DecidableEq K] (pairs : List (K × Path)) :
    List Path :=
  ((upsertFold pairs).filter (fun b => 1 < b.2.length)).flatMap (fun b => b.2)

/-- candidates (line 205): files of all size buckets having more than one
member, bucket by bucket in dict order. -/
def candidatesOf {Q H : Type} (fs : FS Q H) (walked : List Path) : List Path :=
  survivorsOf (scanPairs fs walked)

/-- One step of the phase-2 regroup loop (lines 218-220):

    for path, qhash in results:
        if qhash:
            quick_map[(path.stat().st_size, qhash)].append(path)

The stat call is NOT wrapped in try/except: when it fails the OSError
propagates out of find_duplicates, which Except.error models. -/
def quickRegroupStep {Q H : Type} [DecidableEq Q] (fs : FS Q H)
    (acc : List ((Nat × Q) × Path)) (pq : Path × Option Q) :
    Except Unit (List ((Nat × Q) × Path)) :=
  match pq.2 with
  | none => .ok acc
  | some q =>
    match fs.statSize2 pq.1 with
    | none => .error ()
    | some s => .ok (acc ++ [((s, q), pq.1)])

/-- Phase 3 (lines 224-245): full-hash the final candidates through the
parallel executor, regroup the successful results by full hash alone
(for path, fhash in results: if fhash: hash_map[fhash].append(path)), and
keep the buckets with more than one member. -/
def fullGroups {Q H : Type} [DecidableEq H] (fs : FS Q H)
    (final_candidates : List Path) (mpAvailable : Bool) (workers : Nat) :
    List (H × List Path) :=
  (upsertFold
      ((parallel_hash (hash_file_wrapper_full fs) final_candidates mpAvailable workers 20).filterMap
        (fun pr => pr.2.map (fun h => (h, pr.1))))).filter
    (fun b => 1 < b.2.length)

/-- find_duplicates (lines 155-252).  Printing and timing are dropped; the
observable result is the final hash -> paths dict (buckets with more than
one member), or the exception escaping from the phase-2 regroup stat.  The
two early returns of the code (lines 207-209 and 230-232) are the two
if-branches. -/
def find_duplicates {Q H : Type} [DecidableEq Q] [DecidableEq H]
    (fs : FS Q H) (rootParent : Path) (tree : FSTree) (skip : List String)
    (mpAvailable : Bool) (workers : Nat) :
    Except Unit (List (H × List Path)) :=
  if (candidatesOf fs (walkFiles skip rootParent tree)).isEmpty then .ok []
  else
    ((parallel_hash (hash_file_wrapper_quick fs)
        (candidatesOf fs (walkFiles skip rootParent tree)) mpAvailable workers 50).foldlM
      (quickRegroupStep fs) []).bind (fun quickPairs =>
        if (survivorsOf quickPairs).isEmpty then .ok []
        else .ok (fullGroups fs (survivorsOf quickPairs) mpAvailable workers))

/-! ### Deletion planner (get_file_age, analyze_duplicates, lines 113-118
and 255-288) -/

/-- get_file_age (lines 113-118): the st_mtime of the path, or float('inf')
when the stat raises (the except arm). -/
def get_file_age {Q H : Type} (fs : FS Q H) (p : Path) : WithTop Nat :=
  match fs.mtime p with
  | some t => (t : WithTop Nat)
  | none => ⊤

/-- Stable insertion of x into a list already stably sorted by key: x goes
before the first element whose key is not smaller, so an element inserted
later (originally earlier in the input) precedes elements of equal key. -/
def insertByKey {α K : Type} [LinearOrder K] (key : α → K) (x : α) :
    List α → List α
  | [] => [x]
  | y :: ys =>
    if key y < key x then y :: insertByKey key x ys
    else x :: y :: ys

/-- Python sorted(xs, key=key): the stable sort by the key, embedded as
stable insertion sort (stability: elements with equal keys keep their
relative input order). -/
def sortByKey {α K : Type} [LinearOrder K] (key : α → K) : List α → List α
  | [] => []
  | x :: xs => insertByKey key x (sortByKey key xs)

/-- sorted(file_paths, key=lambda p: get_file_age(p)) from line 272. -/
def sortedByAge {Q H : Type} (fs : FS Q H) (ps : List Path) : List Path :=
  sortByKey (get_file_age fs) ps

/-- The stats dict of analyze_duplicates (lines 261-268). -/
structure ScanStats where
  groups : Nat
  total_files : Nat
  files_to_delete : Nat
  files_to_keep : Nat
  space_total : Nat
  space_wasted : Nat
deriving DecidableEq, Repr

/-- One iteration of the analyze_duplicates group loop (lines 270-286):
sorted_by_age[0] raises IndexError on an empty group, and
oldest_file.stat().st_size raises when the stat fails; both escape the
function.  Otherwise the stats are accumulated and one (newer, oldest,
size) triple is appended per newer file. -/
def analyzeStep {Q H : Type} (fs : FS Q H)
    (acc : List (Path × Path × Nat) × ScanStats) (g : H × List Path) :
    Except Unit (List (Path × Path × Nat) × ScanStats) :=
  match sortedByAge fs g.2 with
  | [] => .error ()
  | oldest :: newer =>
    match fs.statSize3 oldest with
    | none => .error ()
    | some file_size =>
      .ok
        (acc.1 ++ newer.map (fun nf => (nf, oldest, file_size)),
          { acc.2 with
            total_files := acc.2.total_files + g.2.length
            files_to_keep := acc.2.files_to_keep + 1
            files_to_delete := acc.2.files_to_delete + newer.length
            space_total := acc.2.space_total + file_size
            space_wasted := acc.2.space_wasted + file_size * newer.length })

/-- analyze_duplicates (lines 255-288): fold the group loop over the dict
items in order, starting from the empty plan and the initial stats (groups
is set to len(duplicates) up front and never changed by the loop). -/
def analyze_duplicates {Q H : Type} (fs : FS Q H)
    (duplicates : List (H × List Path)) :
    Except Unit (List (Path × Path × Nat) × ScanStats) :=
  duplicates.foldlM (analyzeStep fs)
    ([],
      { groups := duplicates.length, total_files := 0, files_to_delete := 0
        files_to_keep := 0, space_total := 0, space_wasted := 0 })

/-- The keep file of one group: sorted_by_age[0] (line 274). -/
def keepOf {Q H : Type} (fs : FS Q H) (ps : List Path) : Path :=
  (sortedByAge fs ps).headD []

/-- The keep size of one group: oldest_file.stat().st_size (line 277), read
at planning time. -/
def keepSize {Q H : Type} (fs : FS Q H) (ps : List Path) : Nat :=
  (fs.statSize3 (keepOf fs ps)).getD 0

/-- The plan entries contributed by one group (lines 285-286). -/
def groupPlan {Q H : Type} (fs : FS Q H) (g : H × List Path) :
    List (Path × Path × Nat) :=
  match sortedByAge fs g.2 with
  | [] => []
  | oldest :: newer => newer.map (fun nf => (nf, oldest, (fs.statSize3 oldest).getD 0))

/-- Denominator of the waste-percentage division of print_statistics
(line 304): stats[space_total] + stats[space_wasted]. -/
def wastePercentDenominator (stats : ScanStats) : Nat :=
  stats.space_total + stats.space_wasted

/-! ### Lemmas about the ordered grouping -/

/-- Bucket of key k in a grouped dict (empty when the key is absent). -/
def bucketOf {K α : Type} [DecidableEq K] (k : K) (m : List (K × List α)) :
    List α :=
  match m.find? (fun b => b.1 = k) with
  | some b => b.2
  | none => []

theorem bucketOf_upsert {K α : Type} [DecidableEq K] (k k1 : K) (v : α)
    (m : List (K × List α)) :
    bucketOf k (upsert k1 v m) =
      if k1 = k then bucketOf k m ++ [v] else bucketOf k m := by
  induction m with
  | nil =>
    by_cases h : k1 = k
    · subst h
      simp [bucketOf, upsert, List.find?]
    · simp [bucketOf, upsert, List.find?, h]
  | cons b m ih =>
    obtain ⟨kb, vs⟩ := b
    by_cases hb : kb = k1
    · subst hb
      by_cases h : kb = k
      · subst h
        simp [bucketOf, upsert, List.find?]
      · simp [bucketOf, upsert, List.find?, h]
    · by_cases h : kb = k
      · subst h
        have hk1 : ¬ (k1 = kb) := fun hh => hb hh.symm
        simp [bucketOf, upsert, List.find?, hb, hk1]
      · simp only [upsert, if_neg hb]
        have h1 : bucketOf k ((kb, vs) :: upsert k1 v m) = bucketOf k (upsert k1 v m) := by
          simp [bucketOf, List.find?, h]
        have h2 : bucketOf k ((kb, vs) :: m) = bucketOf k m := by
          simp [bucketOf, List.find?, h]
        rw [h1, h2, ih]

theorem bucketOf_foldl {K α : Type} [DecidableEq K] (k : K)
    (pairs : List (K × α)) :
    ∀ (acc : List (K × List α)),
      bucketOf k (pairs.foldl (fun acc kv => upsert kv.1 kv.2 acc) acc) =
        bucketOf k acc ++ (pairs.filter (fun pr => pr.1 = k)).map Prod.snd := by
  induction pairs with
  | nil =>
    intro acc
    simp
  | cons kv pairs ih =>
    intro acc
    obtain ⟨k1, v⟩ := kv
    simp only [List.foldl_cons]
    rw [ih]
    rw [bucketOf_upsert]
    by_cases h : k1 = k
    · subst h
      simp [List.filter_cons]
    · simp [List.filter_cons, h]

theorem bucketOf_upsertFold {K α : Type} [DecidableEq K] (k : K)
    (pairs : List (K × α)) :
    bucketOf k (upsertFold pairs) =
      (pairs.filter (fun pr => pr.1 = k)).map Prod.snd := by
  unfold upsertFold
  rw [bucketOf_foldl]
  simp [bucketOf, List.find?]

theorem keys_upsert {K α : Type} [DecidableEq K] (k : K) (v : α)
    (m : List (K × List α)) :
    (upsert k v m).map Prod.fst =
      if k ∈ m.map Prod.fst then m.map Prod.fst else m.map Prod.fst ++ [k] := by
  induction m with
  | nil => simp [upsert]
  | cons b m ih =>
    obtain ⟨kb, vs⟩ := b
    by_cases h : kb = k
    · subst h
      simp [upsert]
    · have h2 : k ≠ kb := fun hh => h hh.symm
      simp only [upsert, if_neg h, List.map_cons, List.mem_cons]
      rw [ih]
      by_cases hm : k ∈ m.map Prod.fst
      · simp [hm, h2]
      · simp [hm, h2]

theorem keys_upsert_nodup {K α : Type} [DecidableEq K] (k : K) (v : α)
    (m : List (K × List α)) (h : (m.map Prod.fst).Nodup) :
    ((upsert k v m).map Prod.fst).Nodup := by
  rw [keys_upsert]
  by_cases hm : k ∈ m.map Prod.fst
  · rwa [if_pos hm]
  · rw [if_neg hm]
    refine List.Nodup.append h (List.nodup_singleton k) ?_
    intro a ha hb2
    simp only [List.mem_singleton] at hb2
    subst hb2
    exact hm ha

theorem keys_upsertFold_nodup {K α : Type} [DecidableEq K]
    (pairs : List (K × α)) :
    ((upsertFold pairs).map Prod.fst).Nodup := by
  unfold upsertFold
  have haux : ∀ (acc : List (K × List α)), (acc.map Prod.fst).Nodup →
      ((pairs.foldl (fun acc kv => upsert kv.1 kv.2 acc) acc).map Prod.fst).Nodup := by
    induction pairs with
    | nil => intro acc h; simpa using h
    | cons kv pairs ih =>
      intro acc h
      simp only [List.foldl_cons]
      exact ih _ (keys_upsert_nodup kv.1 kv.2 acc h)
  exact haux [] (by simp)

theorem mem_bucketOf {K α : Type} [DecidableEq K] (k : K) (vs : List α)
    (m : List (K × List α)) (hnd : (m.map Prod.fst).Nodup)
    (h : (k, vs) ∈ m) : bucketOf k m = vs := by
  induction m with
  | nil => simp at h
  | cons b m ih =>
    obtain ⟨kb, vsb⟩ := b
    rcases List.mem_cons.mp h with hh | hh
    · injection hh with h1 h2
      subst h1
      subst h2
      simp [bucketOf, List.find?]
    · have hk : k ∈ m.map Prod.fst := by
        exact List.mem_map.mpr ⟨(k, vs), hh, rfl⟩
      have hkb : kb ∉ m.map Prod.fst := by
        simp only [List.map_cons, List.nodup_cons] at hnd
        exact hnd.1
      have hne : kb ≠ k := fun hh2 => hkb (hh2 ▸ hk)
      have : bucketOf k ((kb, vsb) :: m) = bucketOf k m := by
        simp [bucketOf, List.find?, hne]
      rw [this]
      exact ih (by simp only [List.map_cons, List.nodup_cons] at hnd; exact hnd.2) hh

/-- Every bucket of a grouped dict is the filter of its key over the pair
stream, in stream order. -/
theorem mem_upsertFold {K α : Type} [DecidableEq K] (k : K) (vs : List α)
    (pairs : List (K × α)) (h : (k, vs) ∈ upsertFold pairs) :
    vs = (pairs.filter (fun pr => pr.1 = k)).map Prod.snd := by
  rw [← bucketOf_upsertFold]
  exact (mem_bucketOf k vs (upsertFold pairs) (keys_upsertFold_nodup pairs) h).symm

/-- Pair streams of the shape used by every funnel stage: keys computed by an
oracle, values the paths themselves.  The bucket of key k is then the plain
filter of the stage input. -/
theorem bucket_filter_of_keyed {α K : Type} [DecidableEq K] (h : α → Option K)
    (l : List α) (k : K) :
    ((l.filterMap (fun p => (h p).map (fun s => (s, p)))).filter
        (fun pr => pr.1 = k)).map Prod.snd =
      l.filter (fun p => h p = some k) := by
  induction l with
  | nil => simp
  | cons x l ih =>
    cases hx : h x with
    | none =>
      simp [List.filterMap_cons, List.filter_cons, hx, ih]
    | some s =>
      by_cases hk : s = k
      · subst hk
        simp [List.filterMap_cons, List.filter_cons, hx, ih]
      · simp [List.filterMap_cons, List.filter_cons, hx, hk, ih]

/-! ### Lemmas about the stable sort -/

theorem insertByKey_perm {α K : Type} [LinearOrder K] (key : α → K) (x : α)
    (l : List α) : (insertByKey key x l).Perm (x :: l) := by
  induction l with
  | nil => simp [insertByKey]
  | cons y ys ih =>
    rw [insertByKey]
    by_cases h : key y < key x
    · rw [if_pos h]
      exact (List.Perm.cons y ih).trans (List.Perm.swap x y ys)
    · rw [if_neg h]

theorem sortByKey_perm {α K : Type} [LinearOrder K] (key : α → K)
    (l : List α) : (sortByKey key l).Perm l := by
  induction l with
  | nil => simp [sortByKey]
  | cons x xs ih =>
    rw [sortByKey]
    exact (insertByKey_perm key x (sortByKey key xs)).trans (List.Perm.cons x ih)

theorem mem_sortByKey {α K : Type} [LinearOrder K] (key : α → K)
    (l : List α) (x : α) : x ∈ sortByKey key l ↔ x ∈ l :=
  (sortByKey_perm key l).mem_iff

theorem length_sortByKey {α K : Type} [LinearOrder K] (key : α → K)
    (l : List α) : (sortByKey key l).length = l.length :=
  (sortByKey_perm key l).length_eq

theorem insertByKey_pairwise {α K : Type} [LinearOrder K] (key : α → K)
    (x : α) (l : List α)
    (h : l.Pairwise (fun a b => key a ≤ key b)) :
    (insertByKey key x l).Pairwise (fun a b => key a ≤ key b) := by
  induction l with
  | nil => simp [insertByKey]
  | cons y ys ih =>
    rw [insertByKey]
    rcases List.pairwise_cons.mp h with ⟨hy, hys⟩
    by_cases hlt : key y < key x
    · rw [if_pos hlt]
      refine List.pairwise_cons.mpr ⟨?_, ih hys⟩
      intro z hz
      rcases (insertByKey_perm key x ys).mem_iff.mp hz with hz1
      rcases List.mem_cons.mp hz1 with hz2 | hz2
      · subst hz2
        exact le_of_lt hlt
      · exact hy z hz2
    · rw [if_neg hlt]
      refine List.pairwise_cons.mpr ⟨?_, h⟩
      intro z hz
      rcases List.mem_cons.mp hz with hz2 | hz2
      · subst hz2
        exact le_of_not_lt hlt
      · exact le_trans (le_of_not_lt hlt) (hy z hz2)

theorem sortByKey_pairwise {α K : Type} [LinearOrder K] (key : α → K)
    (l : List α) :
    (sortByKey key l).Pairwise (fun a b => key a ≤ key b) := by
  induction l with
  | nil => simp [sortByKey]
  | cons x xs ih =>
    rw [sortByKey]
    exact insertByKey_pairwise key x _ ih

/-- Head of the sorted list is a key-minimal element. -/
theorem sortByKey_head_min {α K : Type} [LinearOrder K] (key : α → K)
    (l : List α) (z : α) (zs : List α) (h : sortByKey key l = z :: zs) :
    ∀ y ∈ l, key z ≤ key y := by
  intro y hy
  have hy2 : y ∈ z :: zs := h ▸ (mem_sortByKey key l y).mpr hy
  rcases List.mem_cons.mp hy2 with hh | hh
  · subst hh
    exact le_rfl
  · have := sortByKey_pairwise key l
    rw [h] at this
    exact (List.pairwise_cons.mp this).1 y hh

theorem filter_insertByKey {α K : Type} [LinearOrder K] [DecidableEq K]
    (key : α → K) (k : K) (x : α) (l : List α)
    (hs : l.Pairwise (fun a b => key a ≤ key b)) :
    (insertByKey key x l).filter (fun z => key z = k) =
      if key x = k then x :: l.filter (fun z => key z = k)
      else l.filter (fun z => key z = k) := by
  induction l with
  | nil =>
    by_cases h : key x = k
    · simp [insertByKey, List.filter_cons, h]
    · simp [insertByKey, List.filter_cons, h]
  | cons y ys ih =>
    rcases List.pairwise_cons.mp hs with ⟨hy, hys⟩
    rw [insertByKey]
    by_cases hlt : key y < key x
    · rw [if_pos hlt]
      rw [List.filter_cons, List.filter_cons, ih hys]
      by_cases hxk : key x = k
      · have hyk : ¬ (key y = k) := by
          intro hh
          rw [hh, ← hxk] at hlt
          exact lt_irrefl _ hlt
        simp [hxk, hyk]
      · simp [hxk]
    · rw [if_neg hlt]
      rw [List.filter_cons]
      by_cases hxk : key x = k
      · simp [hxk]
      · simp [hxk]

/-- Stability of the planner sort: restricted to any single key value, the
sorted list equals the input list (elements of equal key keep their relative
order). -/
theorem filter_sortByKey {α K : Type} [LinearOrder K] [DecidableEq K]
    (key : α → K) (k : K) (l : List α) :
    (sortByKey key l).filter (fun z => key z = k) =
      l.filter (fun z => key z = k) := by
  induction l with
  | nil => simp [sortByKey]
  | cons x xs ih =>
    rw [sortByKey, filter_insertByKey key k x _ (sortByKey_pairwise key xs),
      List.filter_cons]
    by_cases hxk : key x = k
    · simp [hxk, ih]
    · simp [hxk, ih]

/-! ### The phase-2 regroup fold -/

/-- Key under which the phase-2 loop files a path whose quick hash was
computed: (st_size at the regroup re-stat, quick hash); none when the quick
hash itself failed (the path is skipped by the falsy test). -/
def quickKey {Q H : Type} (fs : FS Q H) (p : Path) : Option (Nat × Q) :=
  (fs.quickHash p).bind (fun q => (fs.statSize2 p).map (fun s => (s, q)))

theorem quickFold_ok {Q H : Type} [DecidableEq Q] (fs : FS Q H) :
    ∀ (results : List (Path × Option Q)) (acc out : List ((Nat × Q) × Path)),
      results.foldlM (quickRegroupStep fs) acc = .ok out →
      out = acc ++ results.filterMap
        (fun pq => pq.2.bind (fun q =>
          (fs.statSize2 pq.1).map (fun s => ((s, q), pq.1)))) := by
  intro results
  induction results with
  | nil =>
    intro acc out h
    simp only [List.foldlM_nil] at h
    injection h with h
    simp [← h]
  | cons pq rest ih =>
    intro acc out h
    simp only [List.foldlM_cons] at h
    cases hq : pq.2 with
    | none =>
      rw [show quickRegroupStep fs acc pq = .ok acc by
        simp [quickRegroupStep, hq]] at h
      simp only [List.filterMap_cons, hq, Option.none_bind]
      exact ih acc out h
    | some q =>
      cases hs : fs.statSize2 pq.1 with
      | none =>
        rw [show quickRegroupStep fs acc pq = .error () by
          simp [quickRegroupStep, hq, hs]] at h
        exact Except.noConfusion h
      | some s =>
        rw [show quickRegroupStep fs acc pq = .ok (acc ++ [((s, q), pq.1)]) by
          simp [quickRegroupStep, hq, hs]] at h
        have := ih (acc ++ [((s, q), pq.1)]) out h
        simp only [List.filterMap_cons, hq, hs, Option.some_bind, Option.map_some]
        rw [this, List.append_assoc]
        rfl

theorem quick_results_filterMap {Q H : Type} (fs : FS Q H)
    (candidates : List Path) :
    (candidates.map (hash_file_wrapper_quick fs)).filterMap
        (fun pq => pq.2.bind (fun q =>
          (fs.statSize2 pq.1).map (fun s => ((s, q), pq.1)))) =
      candidates.filterMap
        (fun p => (quickKey fs p).map (fun k => (k, p))) := by
  rw [List.filterMap_map]
  congr 1
  funext p
  unfold hash_file_wrapper_quick quickKey
  cases hq : fs.quickHash p with
  | none => simp [hq]
  | some q =>
    cases hs : fs.statSize2 p with
    | none => simp [hq, hs]
    | some s => simp [hq, hs]

/-! ### The planner fold -/

theorem analyze_foldl_ok {Q H : Type} (fs : FS Q H) :
    ∀ (dups : List (H × List Path))
      (acc : List (Path × Path × Nat) × ScanStats)
      (plan : List (Path × Path × Nat)) (stats : ScanStats),
      dups.foldlM (analyzeStep fs) acc = .ok (plan, stats) →
      plan = acc.1 ++ dups.flatMap (groupPlan fs) ∧
      stats.groups = acc.2.groups ∧
      stats.total_files = acc.2.total_files + (dups.map (fun g => g.2.length)).sum ∧
      stats.files_to_keep = acc.2.files_to_keep + dups.length ∧
      stats.files_to_delete = acc.2.files_to_delete + (dups.map (fun g => g.2.length - 1)).sum ∧
      stats.space_total = acc.2.space_total + (dups.map (fun g => keepSize fs g.2)).sum ∧
      stats.space_wasted = acc.2.space_wasted + (dups.map (fun g => keepSize fs g.2 * (g.2.length - 1))).sum ∧
      ∀ g ∈ dups, g.2 ≠ [] ∧ (fs.statSize3 (keepOf fs g.2)).isSome := by
  intro dups
  induction dups with
  | nil =>
    intro acc plan stats h
    simp only [List.foldlM_nil] at h
    injection h with h
    have h1 : acc.1 = plan := by rw [h]
    have h2 : acc.2 = stats := by rw [h]
    rw [← h1, ← h2]
    simp
  | cons g rest ih =>
    intro acc plan stats h
    simp only [List.foldlM_cons] at h
    cases hs : sortedByAge fs g.2 with
    | nil =>
      rw [show analyzeStep fs acc g = .error () by
        simp [analyzeStep, hs]] at h
      exact Except.noConfusion h
    | cons oldest newer =>
      cases hsz : fs.statSize3 oldest with
      | none =>
        rw [show analyzeStep fs acc g = .error () by
          simp [analyzeStep, hs, hsz]] at h
        exact Except.noConfusion h
      | some file_size =>
        have hstep : analyzeStep fs acc g = .ok
            (acc.1 ++ newer.map (fun nf => (nf, oldest, file_size)),
              { acc.2 with
                total_files := acc.2.total_files + g.2.length
                files_to_keep := acc.2.files_to_keep + 1
                files_to_delete := acc.2.files_to_delete + newer.length
                space_total := acc.2.space_total + file_size
                space_wasted := acc.2.space_wasted + file_size * newer.length }) := by
          simp [analyzeStep, hs, hsz]
        rw [hstep] at h
        obtain ⟨hplan, hgr, htf, hfk, hfd, hst, hsw, hall⟩ := ih _ plan stats h
        have hkeep : keepOf fs g.2 = oldest := by
          unfold keepOf
          rw [hs]
          rfl
        have hksz : keepSize fs g.2 = file_size := by
          unfold keepSize
          rw [hkeep, hsz]
          rfl
        have hlen : newer.length = g.2.length - 1 := by
          have := length_sortByKey (get_file_age fs) g.2
          unfold sortedByAge at hs
          rw [hs] at this
          simp only [List.length_cons] at this
          omega
        have hgp : groupPlan fs g = newer.map (fun nf => (nf, oldest, file_size)) := by
          unfold groupPlan
          rw [hs]
          simp [hsz]
        have hne : g.2 ≠ [] := by
          intro hh
          have := length_sortByKey (get_file_age fs) g.2
          unfold sortedByAge at hs
          rw [hs, hh] at this
          simp at this
        refine ⟨?_, ?_, ?_, ?_, ?_, ?_, ?_, ?_⟩
        · rw [hplan]
          simp only [List.flatMap_cons, hgp, List.append_assoc]
        · simpa using hgr
        · rw [htf]
          simp only [List.map_cons, List.sum_cons]
          omega
        · rw [hfk]
          simp only [List.length_cons]
          omega
        · rw [hfd]
          simp only [List.map_cons, List.sum_cons]
          omega
        · rw [hst]
          simp only [List.map_cons, List.sum_cons, hksz]
          omega
        · rw [hsw]
          simp only [List.map_cons, List.sum_cons, hksz, hlen]
          omega
        · intro g2 hg2
          rcases List.mem_cons.mp hg2 with hh | hh
          · subst hh
            refine ⟨hne, ?_⟩
            rw [hkeep, hsz]
            rfl
          · exact hall g2 hh

/-- Packaging of analyze_foldl_ok for the top-level call. -/
theorem analyze_ok_spec {Q H : Type} (fs : FS Q H)
    (dups : List (H × List Path)) (plan : List (Path × Path × Nat))
    (stats : ScanStats)
    (h : analyze_duplicates fs dups = .ok (plan, stats)) :
    plan = dups.flatMap (groupPlan fs) ∧
    stats.groups = dups.length ∧
    stats.total_files = (dups.map (fun g => g.2.length)).sum ∧
    stats.files_to_keep = dups.length ∧
    stats.files_to_delete = (dups.map (fun g => g.2.length - 1)).sum ∧
    stats.space_total = (dups.map (fun g => keepSize fs g.2)).sum ∧
    stats.space_wasted = (dups.map (fun g => keepSize fs g.2 * (g.2.length - 1))).sum ∧
    ∀ g ∈ dups, g.2 ≠ [] ∧ (fs.statSize3 (keepOf fs g.2)).isSome := by
  unfold analyze_duplicates at h
  obtain ⟨hplan, hgr, htf, hfk, hfd, hst, hsw, hall⟩ :=
    analyze_foldl_ok fs dups _ plan stats h
  simp only at hplan hgr htf hfk hfd hst hsw
  exact ⟨by simpa using hplan, hgr, by simpa using htf, by simpa using hfk,
    by simpa using hfd, by simpa using hst, by simpa using hsw, hall⟩

/-! ### C2: oldest file is kept, the rest become DELETE entries -/

/-- C2.  For every duplicate group given to the planner whose members all
have readable modification times, analyze_duplicates keeps the member with
the minimum modification time (sorted_by_age[0]), and every other member of
the group appears in the deletion plan as a (delete, keep, size) entry
referencing that keep file. -/
theorem claim_C2 {Q H : Type} (fs : FS Q H) (dups : List (H × List Path))
    (plan : List (Path × Path × Nat)) (stats : ScanStats)
    (h0 : H) (ps : List Path)
    (hok : analyze_duplicates fs dups = .ok (plan, stats))
    (hg : (h0, ps) ∈ dups)
    (hread : ∀ p ∈ ps, (fs.mtime p).isSome) :
    keepOf fs ps ∈ ps ∧
    (∀ p ∈ ps, get_file_age fs (keepOf fs ps) ≤ get_file_age fs p) ∧
    (∀ p ∈ ps, p ≠ keepOf fs ps →
      (p, keepOf fs ps, keepSize fs ps) ∈ plan) := by
  obtain ⟨hplan, -, -, -, -, -, -, hall⟩ := analyze_ok_spec fs dups plan stats hok
  obtain ⟨hne, -⟩ := hall (h0, ps) hg
  cases hsort : sortedByAge fs ps with
  | nil =>
    exfalso
    have := length_sortByKey (get_file_age fs) ps
    unfold sortedByAge at hsort
    rw [hsort] at this
    simp only [List.length_nil] at this
    exact hne (List.length_eq_zero.mp this.symm)
  | cons k rest =>
    have hkeep : keepOf fs ps = k := by
      unfold keepOf
      rw [hsort]
      rfl
    have hmemk : k ∈ ps := by
      have : k ∈ sortedByAge fs ps := by
        rw [hsort]
        exact List.mem_cons_self k rest
      exact (mem_sortByKey (get_file_age fs) ps k).mp this
    refine ⟨hkeep ▸ hmemk, ?_, ?_⟩
    · intro p hp
      rw [hkeep]
      exact sortByKey_head_min (get_file_age fs) ps k rest hsort p hp
    · intro p hp hpk
      have hpsort : p ∈ sortedByAge fs ps :=
        (mem_sortByKey (get_file_age fs) ps p).mpr hp
      rw [hsort] at hpsort
      rcases List.mem_cons.mp hpsort with hh | hh
      · exact absurd (hkeep ▸ hh) hpk
      · rw [hplan]
        refine List.mem_flatMap.mpr ⟨(h0, ps), hg, ?_⟩
        unfold groupPlan
        simp only [hsort]
        rw [hkeep]
        have hsz : keepSize fs ps = (fs.statSize3 k).getD 0 := by
          unfold keepSize
          rw [hkeep]
        rw [hsz]
        exact List.mem_map.mpr ⟨p, hh, rfl⟩

/-! ### C4: the space statistics sum formulas -/

/-- C4.  The space_wasted statistic equals the sum over groups of
(keep size × (group size − 1)), and space_total the sum of the keep sizes,
where the keep size is the size stat-ed for the kept file. -/
theorem claim_C4 {Q H : Type} (fs : FS Q H) (dups : List (H × List Path))
    (plan : List (Path × Path × Nat)) (stats : ScanStats)
    (hok : analyze_duplicates fs dups = .ok (plan, stats)) :
    stats.space_wasted =
      (dups.map (fun g => keepSize fs g.2 * (g.2.length - 1))).sum ∧
    stats.space_total = (dups.map (fun g => keepSize fs g.2)).sum := by
  obtain ⟨-, -, -, -, -, hst, hsw, -⟩ := analyze_ok_spec fs dups plan stats hok
  exact ⟨hsw, hst⟩

/-! ### C7: no path is both a keep target and a delete target -/

/-- C7.  When each file belongs to at most one duplicate group (the groups
are pairwise disjoint and duplicate-free), no path appears in the deletion
plan both as a delete target and as a keep target. -/
theorem claim_C7 {Q H : Type} (fs : FS Q H) (dups : List (H × List Path))
    (plan : List (Path × Path × Nat)) (stats : ScanStats)
    (hok : analyze_duplicates fs dups = .ok (plan, stats))
    (hnd : ∀ g ∈ dups, (g.2 : List Path).Nodup)
    (hdisj : dups.Pairwise (fun g g2 => ∀ x ∈ g.2, x ∉ g2.2)) :
    ∀ e ∈ plan, ∀ e2 ∈ plan, e.1 ≠ e2.2.1 := by
  obtain ⟨hplan, -, -, -, -, -, -, hall⟩ := analyze_ok_spec fs dups plan stats hok
  intro e he e2 he2
  rw [hplan] at he he2
  obtain ⟨g, hgmem, hge⟩ := List.mem_flatMap.mp he
  obtain ⟨g2, hg2mem, hge2⟩ := List.mem_flatMap.mp he2
  -- structure of the entries of one group
  have decomp : ∀ (gg : H × List Path), gg ∈ dups →
      ∀ ee ∈ groupPlan fs gg, ∃ k rest, sortedByAge fs gg.2 = k :: rest ∧
        ee.1 ∈ rest ∧ ee.2.1 = k := by
    intro gg _ ee hee
    unfold groupPlan at hee
    cases hsort : sortedByAge fs gg.2 with
    | nil =>
      rw [hsort] at hee
      simp at hee
    | cons k rest =>
      rw [hsort] at hee
      simp only [List.mem_map] at hee
      obtain ⟨d, hd, hdd⟩ := hee
      exact ⟨k, rest, rfl, by rw [← hdd]; exact hd, by rw [← hdd]⟩
  obtain ⟨k, rest, hsort, hrest, -⟩ := decomp g hgmem e hge
  obtain ⟨k2, rest2, hsort2, -, hke2⟩ := decomp g2 hg2mem e2 hge2
  have he1g : e.1 ∈ g.2 := by
    have : e.1 ∈ sortedByAge fs g.2 := by
      rw [hsort]
      exact List.mem_cons_of_mem k hrest
    exact (mem_sortByKey (get_file_age fs) g.2 e.1).mp this
  have hk2g2 : k2 ∈ g2.2 := by
    have : k2 ∈ sortedByAge fs g2.2 := by
      rw [hsort2]
      exact List.mem_cons_self k2 rest2
    exact (mem_sortByKey (get_file_age fs) g2.2 k2).mp this
  by_cases hgg : g = g2
  · -- same group: the keep is the head of the Nodup sorted list, the delete
    -- target lies in its tail
    subst hgg
    rw [hsort] at hsort2
    injection hsort2 with hk hr
    have hndg : (sortedByAge fs g.2).Nodup :=
      ((sortByKey_perm (get_file_age fs) g.2).nodup_iff).mpr (hnd g hgmem)
    rw [hsort] at hndg
    rcases List.nodup_cons.mp hndg with ⟨hknotin, -⟩
    intro hcontra
    rw [hke2, ← hk] at hcontra
    exact hknotin (hcontra ▸ hrest)
  · -- distinct groups are disjoint
    have hsymm : Symmetric (fun (g g2 : H × List Path) => ∀ x ∈ g.2, x ∉ g2.2) := by
      intro a b hab x hxb hxa
      exact hab x hxa hxb
    have hR := List.Pairwise.forall hsymm hdisj hgmem hg2mem hgg
    intro hcontra
    rw [hke2] at hcontra
    exact hR e.1 he1g (hcontra ▸ hk2g2)

/-! ### C3: the planner re-reads sizes from disk -/

/-- Amended C3.  The planner performs no destructive action, but it does
perform filesystem metadata reads: the size carried in every
(delete, keep, size) triple is the keep file's st_size as stat-ed at
planning time (oldest_file.stat().st_size), not a size captured during the
scan. -/
theorem claim_C3 {Q H : Type} (fs : FS Q H) (dups : List (H × List Path))
    (plan : List (Path × Path × Nat)) (stats : ScanStats)
    (hok : analyze_duplicates fs dups = .ok (plan, stats)) :
    ∀ e ∈ plan, fs.statSize3 e.2.1 = some e.2.2 := by
  obtain ⟨hplan, -, -, -, -, -, -, hall⟩ := analyze_ok_spec fs dups plan stats hok
  intro e he
  rw [hplan] at he
  obtain ⟨g, hgmem, hge⟩ := List.mem_flatMap.mp he
  obtain ⟨-, hsome⟩ := hall g hgmem
  unfold groupPlan at hge
  cases hsort : sortedByAge fs g.2 with
  | nil =>
    rw [hsort] at hge
    simp at hge
  | cons k rest =>
    rw [hsort] at hge
    simp only [List.mem_map] at hge
    obtain ⟨d, -, hdd⟩ := hge
    have hkeep : keepOf fs g.2 = k := by
      unfold keepOf
      rw [hsort]
      rfl
    rw [hkeep] at hsome
    obtain ⟨v, hv⟩ := Option.isSome_iff_exists.mp hsome
    rw [← hdd]
    simp only
    rw [hv]
    rfl

/-! ### C10: the waste-percentage denominator -/

/-- Amended C10.  The denominator space_total + space_wasted of the
waste-percentage division in print_statistics is nonzero provided at least
one group's keep file has a nonzero stat size; when every keep file has
size 0 (for example when every group consists solely of zero-byte files)
the denominator is 0 and the division raises ZeroDivisionError. -/
theorem claim_C10 {Q H : Type} (fs : FS Q H) (dups : List (H × List Path))
    (plan : List (Path × Path × Nat)) (stats : ScanStats)
    (hok : analyze_duplicates fs dups = .ok (plan, stats))
    (hpos : ∃ g ∈ dups, 0 < keepSize fs g.2) :
    0 < wastePercentDenominator stats := by
  obtain ⟨-, -, -, -, -, hst, -, -⟩ := analyze_ok_spec fs dups plan stats hok
  obtain ⟨g, hgmem, hgpos⟩ := hpos
  have hmem : keepSize fs g.2 ∈ dups.map (fun g => keepSize fs g.2) :=
    List.mem_map.mpr ⟨g, hgmem, rfl⟩
  have hle : keepSize fs g.2 ≤ (dups.map (fun g => keepSize fs g.2)).sum :=
    List.single_le_sum (fun x _ => Nat.zero_le x) _ hmem
  unfold wastePercentDenominator
  omega

/-! ### Concrete planner scenarios -/

def wPathA : Path := ["root", "a.bin"]

def wPathB : Path := ["root", "b.bin"]

def wPathC : Path := ["root", "c.bin"]

def wPathD : Path := ["root", "d.bin"]

/-- Concrete filesystem: four files of size 4 with distinct modification
times 10 < 20 < 30 < 40. -/
def wfsPlan : FS Nat Nat where
  statSize1 := fun _ => some 4
  quickHash := fun _ => some 7
  statSize2 := fun _ => some 4
  fullHash := fun _ => some 9
  mtime := fun p =>
    if p = wPathA then some 10
    else if p = wPathB then some 20
    else if p = wPathC then some 30
    else some 40
  statSize3 := fun _ => some 4

/-- Same scan-time view as wfsSize20, but the planning-time stat reports
size 10. -/
def wfsSize10 : FS Nat Nat where
  statSize1 := fun _ => some 4
  quickHash := fun _ => some 7
  statSize2 := fun _ => some 4
  fullHash := fun _ => some 9
  mtime := fun p => if p = wPathA then some 10 else some 20
  statSize3 := fun _ => some 10

/-- Same scan-time view as wfsSize10, but the planning-time stat reports
size 20. -/
def wfsSize20 : FS Nat Nat where
  statSize1 := fun _ => some 4
  quickHash := fun _ => some 7
  statSize2 := fun _ => some 4
  fullHash := fun _ => some 9
  mtime := fun p => if p = wPathA then some 10 else some 20
  statSize3 := fun _ => some 20

/-- Concrete filesystem on which every file has size 0 (zero-byte
duplicates). -/
def wfsZero : FS Nat Nat where
  statSize1 := fun _ => some 0
  quickHash := fun _ => some 7
  statSize2 := fun _ => some 0
  fullHash := fun _ => some 9
  mtime := fun p => if p = wPathA then some 10 else some 20
  statSize3 := fun _ => some 0

/-- C2 witness: on a concrete two-member group the conclusions of claim_C2
hold, with satisfied hypotheses. -/
theorem claim_C2_witness :
    keepOf wfsPlan [wPathB, wPathA] ∈ [wPathB, wPathA] ∧
    (∀ p ∈ [wPathB, wPathA],
      get_file_age wfsPlan (keepOf wfsPlan [wPathB, wPathA]) ≤ get_file_age wfsPlan p) ∧
    (∀ p ∈ [wPathB, wPathA], p ≠ keepOf wfsPlan [wPathB, wPathA] →
      (p, keepOf wfsPlan [wPathB, wPathA], keepSize wfsPlan [wPathB, wPathA]) ∈
        [(wPathB, wPathA, 4)]) :=
  claim_C2 wfsPlan [(9, [wPathB, wPathA])] [(wPathB, wPathA, 4)]
    ⟨1, 2, 1, 1, 4, 4⟩ 9 [wPathB, wPathA] (by rfl) (by decide) (by decide)

/-- C4 witness: the sum formulas at a concrete one-group input. -/
theorem claim_C4_witness :
    (⟨1, 2, 1, 1, 4, 4⟩ : ScanStats).space_wasted =
      (([(9, [wPathB, wPathA])] : List (Nat × List Path)).map
        (fun g => keepSize wfsPlan g.2 * (g.2.length - 1))).sum ∧
    (⟨1, 2, 1, 1, 4, 4⟩ : ScanStats).space_total =
      (([(9, [wPathB, wPathA])] : List (Nat × List Path)).map
        (fun g => keepSize wfsPlan g.2)).sum :=
  claim_C4 wfsPlan [(9, [wPathB, wPathA])] [(wPathB, wPathA, 4)]
    ⟨1, 2, 1, 1, 4, 4⟩ (by rfl)

/-- C7 witness: two disjoint concrete groups; the delete target of the
first plan entry differs from the keep target of the second. -/
theorem claim_C7_witness : wPathB ≠ wPathC :=
  claim_C7 wfsPlan [(9, [wPathB, wPathA]), (11, [wPathD, wPathC])]
    [(wPathB, wPathA, 4), (wPathD, wPathC, 4)] ⟨2, 4, 2, 2, 8, 8⟩
    (by rfl) (by decide) (by decide) (wPathB, wPathA, 4) (by decide)
    (wPathD, wPathC, 4) (by decide)

/-- C3 witness for the amended claim: on a concrete plan entry the size of
the triple is the planning-time stat of its keep file. -/
theorem claim_C3_witness : wfsPlan.statSize3 wPathA = some 4 :=
  claim_C3 wfsPlan [(9, [wPathB, wPathA])] [(wPathB, wPathA, 4)]
    ⟨1, 2, 1, 1, 4, 4⟩ (by rfl) (wPathB, wPathA, 4) (by decide)

/-- C3 counterexample: two filesystems that agree on every scan-time oracle
and on the modification times, and differ only in the stat the planner
performs, give different deletion plans on the same captured duplicate
groups: the size in the triples is re-read from disk while planning, so the
planner does perform filesystem I/O. -/
theorem claim_C3_counterexample :
    wfsSize10.statSize1 = wfsSize20.statSize1 ∧
    wfsSize10.quickHash = wfsSize20.quickHash ∧
    wfsSize10.statSize2 = wfsSize20.statSize2 ∧
    wfsSize10.fullHash = wfsSize20.fullHash ∧
    wfsSize10.mtime = wfsSize20.mtime ∧
    analyze_duplicates wfsSize10 [(9, [wPathB, wPathA])] =
      .ok ([(wPathB, wPathA, 10)], ⟨1, 2, 1, 1, 10, 10⟩) ∧
    analyze_duplicates wfsSize20 [(9, [wPathB, wPathA])] =
      .ok ([(wPathB, wPathA, 20)], ⟨1, 2, 1, 1, 20, 20⟩) ∧
    analyze_duplicates wfsSize10 [(9, [wPathB, wPathA])] ≠
      analyze_duplicates wfsSize20 [(9, [wPathB, wPathA])] := by
  refine ⟨rfl, rfl, rfl, rfl, rfl, rfl, rfl, ?_⟩
  intro h
  rw [show analyze_duplicates wfsSize10 [(9, [wPathB, wPathA])] =
      .ok ([(wPathB, wPathA, 10)], ⟨1, 2, 1, 1, 10, 10⟩) from rfl,
    show analyze_duplicates wfsSize20 [(9, [wPathB, wPathA])] =
      .ok ([(wPathB, wPathA, 20)], ⟨1, 2, 1, 1, 20, 20⟩) from rfl] at h
  injection h with h
  injection h with h1 h2
  injection h1 with h1 h3
  injection h1 with h4 h5
  injection h5 with h5 h6
  exact absurd h6 (by decide)

/-- C10 counterexample: one duplicate group of zero-byte files is a
non-empty set of groups on which the waste-percentage denominator
space_total + space_wasted is 0, so the division in print_statistics is a
division by zero. -/
theorem claim_C10_counterexample :
    analyze_duplicates wfsZero [(9, [wPathB, wPathA])] =
      .ok ([(wPathB, wPathA, 0)], ⟨1, 2, 1, 1, 0, 0⟩) ∧
    1 ≤ (⟨1, 2, 1, 1, 0, 0⟩ : ScanStats).groups ∧
    wastePercentDenominator ⟨1, 2, 1, 1, 0, 0⟩ = 0 :=
  ⟨rfl, by decide, by decide⟩

/-- C10 witness for the amended claim: with one keep file of nonzero size
the denominator is positive. -/
theorem claim_C10_witness :
    0 < wastePercentDenominator ⟨1, 2, 1, 1, 4, 4⟩ :=
  claim_C10 wfsPlan [(9, [wPathB, wPathA])] [(wPathB, wPathA, 4)]
    ⟨1, 2, 1, 1, 4, 4⟩ (by rfl) ⟨(9, [wPathB, wPathA]), by decide, by decide⟩

/-! ### C5: the result does not depend on the worker count -/

/-- Both branches of parallel_hash compute the map of the (pure) hash
function over the batch, because Pool.imap yields results in input order. -/
theorem parallel_hash_eq_map {α β : Type} (func : α → β) (items : List α)
    (mpAvailable : Bool) (workers chunksize : Nat) :
    parallel_hash func items mpAvailable workers chunksize = items.map func := by
  unfold parallel_hash pool_imap sequential_map
  split
  · rfl
  · rfl

/-- The phase-3 stage, normalised: its result does not depend on the
executor configuration. -/
theorem fullGroups_eq_map {Q H : Type} [DecidableEq H] (fs : FS Q H)
    (final_candidates : List Path) (mpAvailable : Bool) (workers : Nat) :
    fullGroups fs final_candidates mpAvailable workers =
      (upsertFold (final_candidates.filterMap
          (fun p => (fs.fullHash p).map (fun h => (h, p))))).filter
        (fun b => 1 < b.2.length) := by
  unfold fullGroups
  rw [parallel_hash_eq_map, List.filterMap_map]
  rfl

/-- C5.  On an unchanged tree (same filesystem oracles), find_duplicates
returns the same duplicate groups for every worker count and for either
availability of multiprocessing: the output is independent of the parallel
execution path taken by parallel_hash. -/
theorem claim_C5 {Q H : Type} [DecidableEq Q] [DecidableEq H]
    (fs : FS Q H) (rootParent : Path) (tree : FSTree) (skip : List String)
    (mp mp2 : Bool) (workers workers2 : Nat) :
    find_duplicates fs rootParent tree skip mp workers =
      find_duplicates fs rootParent tree skip mp2 workers2 := by
  unfold find_duplicates
  simp only [parallel_hash_eq_map, fullGroups_eq_map]

/-! ### C1: the unprotected re-stat in the phase-2 regroup -/

/-- Tree for the C1 scenario: one directory with two same-size files. -/
def c1Tree : FSTree := .node "r" ["a.bin", "b.bin"] []

/-- Filesystem for the C1 scenario: both files stat successfully in phase 1
and quick-hash successfully, but b.bin vanishes before the phase-2 regroup
loop re-stats it (its statSize2 call raises). -/
def c1fs : FS Nat Nat where
  statSize1 := fun _ => some 5
  quickHash := fun _ => some 7
  statSize2 := fun p => if p = ["r", "b.bin"] then none else some 5
  fullHash := fun _ => some 9
  mtime := fun _ => some 1
  statSize3 := fun _ => some 5

/-! ### C6: skipped directories and their subtrees -/

/-- Well-formed directory tree: sibling directories have distinct basenames
(as on a real filesystem), recursively. -/
inductive WF : FSTree → Prop
  | node (nm : String) (fl : List String) (sd : List FSTree)
      (hnd : (sd.map FSTree.name).Nodup)
      (hsub : ∀ s ∈ sd, WF s) : WF (.node nm fl sd)

theorem WF.names_nodup {t : FSTree} (h : WF t) :
    (t.subdirs.map FSTree.name).Nodup := by
  cases h with
  | node nm fl sd hnd hsub => exact hnd

theorem WF.sub {t : FSTree} (h : WF t) : ∀ s ∈ t.subdirs, WF s := by
  cases h with
  | node nm fl sd hnd hsub => exact hsub

/-- OccursAt p t q u: starting from the directory t whose parent path is p,
the directory u with parent path q is reachable (u is t itself or a
descendant directory of t). -/
inductive OccursAt : Path → FSTree → Path → FSTree → Prop
  | refl (p : Path) (t : FSTree) : OccursAt p t p t
  | step {p q : Path} {t s u : FSTree} (hs : s ∈ t.subdirs)
      (h : OccursAt (p ++ [t.name]) s q u) : OccursAt p t q u

/-- Every path produced by the traversal of t lies strictly below the
directory path of t. -/
theorem mem_walkFiles_shape :
    ∀ (t : FSTree) (skip : List String) (parent f : Path),
      f ∈ walkFiles skip parent t →
      ∃ rest, rest ≠ [] ∧ f = parent ++ t.name :: rest
  | .node nm fl sd => by
    intro skip parent f hf
    rw [walkFiles_eq] at hf
    by_cases hskip : should_skip_directory nm skip
    · rw [if_pos hskip] at hf
      simp at hf
    · rw [if_neg hskip] at hf
      rcases List.mem_append.mp hf with hf1 | hf2
      · obtain ⟨fn, hfn, heq⟩ := List.mem_map.mp hf1
        refine ⟨[fn], by simp, ?_⟩
        rw [← heq]
        simp [FSTree.name]
      · obtain ⟨s, hs, hfs⟩ := List.mem_flatMap.mp hf2
        obtain ⟨rest, hne, heq⟩ := mem_walkFiles_shape s skip (parent ++ [nm]) f hfs
        refine ⟨s.name :: rest, by simp, ?_⟩
        rw [heq]
        simp [FSTree.name]
termination_by t => sizeOf t
decreasing_by
  have h1 : sizeOf s < sizeOf sd := List.sizeOf_lt_of_mem hs
  simp only [FSTree.node.sizeOf_spec]
  omega

/-- The directory path of a descendant starts with the directory path of
the ancestor followed by the name of the subdirectory through which it was
reached (or is the ancestor itself). -/
theorem occursAt_shape {p : Path} {t : FSTree} {q : Path} {u : FSTree}
    (h : OccursAt p t q u) :
    (q = p ∧ u = t) ∨ ∃ s, s ∈ t.subdirs ∧
      ∃ mid, q ++ [u.name] = p ++ t.name :: s.name :: mid := by
  induction h with
  | refl p t => exact Or.inl ⟨rfl, rfl⟩
  | step hs hocc ih =>
    rename_i p q t s u
    refine Or.inr ⟨s, hs, ?_⟩
    rcases ih with ⟨hq, hu⟩ | ⟨s2, hs2, mid, hmid⟩
    · refine ⟨[], ?_⟩
      rw [hq, hu]
      simp
    · refine ⟨s2.name :: mid, ?_⟩
      rw [hmid]
      simp

/-- Files inside a directory whose basename is in the skip set, or anywhere
below it, are never produced by the traversal. -/
theorem skipped_not_walked (skip : List String) (f : Path) :
    ∀ (p : Path) (t : FSTree) (q : Path) (u : FSTree),
      OccursAt p t q u → WF t → u.name ∈ skip →
      f ∈ walkFiles [] q u → f ∉ walkFiles skip p t := by
  intro p t q u hocc
  induction hocc with
  | refl p t =>
    intro hwf hskip hf hmem
    cases t with
    | node nm fl sd =>
      rw [walkFiles_eq, if_pos (by exact hskip)] at hmem
      simp at hmem
  | step hs hocc ih =>
    rename_i p q t s u
    intro hwf hskip hf hmem
    cases t with
    | node nm fl sd =>
      simp only [FSTree.subdirs] at hs
      rw [walkFiles_eq] at hmem
      by_cases hsk : should_skip_directory nm skip
      · rw [if_pos hsk] at hmem
        simp at hmem
      · rw [if_neg hsk] at hmem
        -- the walked file lies below the subdirectory s of t
        obtain ⟨rest, hrne, hrest⟩ := mem_walkFiles_shape u [] q f hf
        have hqshape : ∃ mid, q ++ [u.name] = (p ++ [nm]) ++ s.name :: mid := by
          rcases occursAt_shape hocc with ⟨hq, hu⟩ | ⟨s2, hs2, mid, hmid⟩
          · refine ⟨[], ?_⟩
            rw [hq, hu]
            simp [FSTree.name]
          · refine ⟨s2.name :: mid, ?_⟩
            rw [hmid]
            simp [FSTree.name]
        obtain ⟨mid, hmid⟩ := hqshape
        have hfshape : f = (p ++ [nm]) ++ s.name :: (mid ++ rest) := by
          rw [hrest]
          have : q ++ u.name :: rest = (q ++ [u.name]) ++ rest := by simp
          rw [this, hmid]
          simp
        rcases List.mem_append.mp hmem with hf1 | hf2
        · -- f cannot be a direct file of t: it lies at least two levels deeper
          obtain ⟨fn, hfn, heq⟩ := List.mem_map.mp hf1
          rw [hfshape] at heq
          have : [nm, fn] = nm :: s.name :: (mid ++ rest) := by
            have h3 : p ++ [nm, fn] = p ++ (nm :: s.name :: (mid ++ rest)) := by
              rw [heq]
              simp
            exact List.append_cancel_left h3
          injection this with h4 h5
          injection h5 with h6 h7
          have : mid ++ rest = [] := h7.symm
          rcases List.append_eq_nil.mp this with ⟨-, hr⟩
          exact hrne hr
        · obtain ⟨s2, hs2, hfs2⟩ := List.mem_flatMap.mp hf2
          obtain ⟨rest2, hrne2, hrest2⟩ :=
            mem_walkFiles_shape s2 skip (p ++ [nm]) f hfs2
          have hnames : s2.name = s.name := by
            rw [hfshape] at hrest2
            have := List.append_cancel_left hrest2
            injection this with h4 h5
            exact h4.symm
          have hs2s : s2 = s := by
            have hnd : (sd.map FSTree.name).Nodup := by
              have := hwf.names_nodup
              simpa [FSTree.subdirs] using this
            exact List.inj_on_of_nodup_map hnd hs2 hs hnames
          have hwalk : f ∈ walkFiles skip (p ++ [nm]) s := hs2s ▸ hfs2
          have hwfs : WF s := hwf.sub s (by simpa [FSTree.subdirs] using hs)
          have hname_eq : FSTree.name (FSTree.node nm fl sd) = nm := rfl
          have hih := ih hwfs hskip hf
          rw [hname_eq] at hih
          exact hih hwalk

/-! ### Membership chains through the funnel stages -/

theorem mem_pair_of_mem_bucket {K α : Type} [DecidableEq K]
    {pairs : List (K × α)} {k : K} {vs : List α}
    (h : (k, vs) ∈ upsertFold pairs) {x : α} (hx : x ∈ vs) :
    (k, x) ∈ pairs := by
  rw [mem_upsertFold k vs pairs h] at hx
  obtain ⟨pr, hpr, hsnd⟩ := List.mem_map.mp hx
  rcases List.mem_filter.mp hpr with ⟨hmem, hkey⟩
  have hk : pr.1 = k := by simpa using hkey
  have : pr = (k, x) := by
    obtain ⟨a, b⟩ := pr
    simp only at hk hsnd
    rw [hk, hsnd]
  exact this ▸ hmem

theorem mem_survivors {K : Type} [DecidableEq K] (pairs : List (K × Path))
    (x : Path) (hx : x ∈ survivorsOf pairs) : ∃ k, (k, x) ∈ pairs := by
  unfold survivorsOf at hx
  obtain ⟨b, hb, hxb⟩ := List.mem_flatMap.mp hx
  have hbmem : b ∈ upsertFold pairs := List.mem_of_mem_filter hb
  obtain ⟨k, vs⟩ := b
  exact ⟨k, mem_pair_of_mem_bucket hbmem hxb⟩

theorem mem_keyed_pairs {α K : Type} (h : α → Option K) (l : List α)
    (k : K) (x : α) :
    (k, x) ∈ l.filterMap (fun p => (h p).map (fun s => (s, p))) ↔
      x ∈ l ∧ h x = some k := by
  rw [List.mem_filterMap]
  constructor
  · rintro ⟨a, ha, heq⟩
    cases hha : h a with
    | none =>
      rw [hha] at heq
      rw [show Option.map (fun s => (s, a)) none = none from rfl] at heq
      exact Option.noConfusion heq
    | some s =>
      rw [hha] at heq
      rw [show Option.map (fun s => (s, a)) (some s) = some (s, a) from rfl] at heq
      injection heq with heq
      injection heq with hsk hax
      rw [← hax]
      exact ⟨ha, by rw [hha, hsk]⟩
  · rintro ⟨hl, hh⟩
    refine ⟨x, hl, ?_⟩
    rw [hh]
    rfl

theorem mem_candidatesOf {Q H : Type} (fs : FS Q H) (walked : List Path)
    (x : Path) (hx : x ∈ candidatesOf fs walked) : x ∈ walked := by
  obtain ⟨k, hk⟩ := mem_survivors _ x hx
  exact ((mem_keyed_pairs (fun p => fs.statSize1 p) walked k x).mp hk).1

/-- When the phase-2 regroup loop finishes without raising, the pairs it
filed are exactly the candidates whose quick hash succeeded, keyed by the
(re-stat size, quick hash) pair, in candidate order. -/
theorem quickPairs_spec {Q H : Type} [DecidableEq Q] (fs : FS Q H)
    (cands : List Path) (mp : Bool) (w : Nat) (qp : List ((Nat × Q) × Path))
    (h : (parallel_hash (hash_file_wrapper_quick fs) cands mp w 50).foldlM
        (quickRegroupStep fs) [] = .ok qp) :
    qp = cands.filterMap (fun p => (quickKey fs p).map (fun k => (k, p))) := by
  rw [parallel_hash_eq_map] at h
  have := quickFold_ok fs _ [] qp h
  rw [this, quick_results_filterMap]
  simp

/-- Every member of every reported duplicate group was produced by the
(skip-pruned) traversal. -/
theorem find_mem_walked {Q H : Type} [DecidableEq Q] [DecidableEq H]
    (fs : FS Q H) (rootParent : Path) (tree : FSTree) (skip : List String)
    (mp : Bool) (w : Nat) (res : List (H × List Path))
    (hok : find_duplicates fs rootParent tree skip mp w = .ok res)
    (h0 : H) (g : List Path) (hg : (h0, g) ∈ res) (x : Path) (hx : x ∈ g) :
    x ∈ walkFiles skip rootParent tree := by
  unfold find_duplicates at hok
  by_cases h1 : (candidatesOf fs (walkFiles skip rootParent tree)).isEmpty
  · rw [if_pos h1] at hok
    injection hok with hok
    rw [← hok] at hg
    simp at hg
  · rw [if_neg h1] at hok
    cases hfold : (parallel_hash (hash_file_wrapper_quick fs)
        (candidatesOf fs (walkFiles skip rootParent tree)) mp w 50).foldlM
        (quickRegroupStep fs) [] with
    | error e =>
      rw [hfold] at hok
      exact Except.noConfusion hok
    | ok qp =>
      rw [hfold] at hok
      by_cases h2 : (survivorsOf qp).isEmpty
      · rw [show ((Except.ok qp).bind (fun quickPairs =>
            if (survivorsOf quickPairs).isEmpty then (.ok [] : Except Unit (List (H × List Path)))
            else .ok (fullGroups fs (survivorsOf quickPairs) mp w))) =
            (if (survivorsOf qp).isEmpty then (.ok [] : Except Unit (List (H × List Path)))
            else .ok (fullGroups fs (survivorsOf qp) mp w)) from rfl,
          if_pos h2] at hok
        injection hok with hok
        rw [← hok] at hg
        simp at hg
      · rw [show ((Except.ok qp).bind (fun quickPairs =>
            if (survivorsOf quickPairs).isEmpty then (.ok [] : Except Unit (List (H × List Path)))
            else .ok (fullGroups fs (survivorsOf quickPairs) mp w))) =
            (if (survivorsOf qp).isEmpty then (.ok [] : Except Unit (List (H × List Path)))
            else .ok (fullGroups fs (survivorsOf qp) mp w)) from rfl,
          if_neg h2] at hok
        injection hok with hok
        rw [← hok] at hg
        rw [fullGroups_eq_map] at hg
        have hgmem : (h0, g) ∈ upsertFold ((survivorsOf qp).filterMap
            (fun p => (fs.fullHash p).map (fun h => (h, p)))) :=
          List.mem_of_mem_filter hg
        have hpair := mem_pair_of_mem_bucket hgmem hx
        have hxs : x ∈ survivorsOf qp :=
          ((mem_keyed_pairs (fun p => fs.fullHash p) _ h0 x).mp hpair).1
        obtain ⟨k, hk⟩ := mem_survivors qp x hxs
        rw [quickPairs_spec fs _ mp w qp hfold] at hk
        have hxc : x ∈ candidatesOf fs (walkFiles skip rootParent tree) :=
          ((mem_keyed_pairs (fun p => quickKey fs p) _ k x).mp hk).1
        exact mem_candidatesOf fs _ x hxc

/-- C6.  For every directory whose basename is in the skip set, no file in
it or anywhere below it is produced by the traversal, recorded in any size
bucket, passed to the hashing stages as a candidate, or reported in any
duplicate group of find_duplicates. -/
theorem claim_C6 {Q H : Type} [DecidableEq Q] [DecidableEq H] (fs : FS Q H)
    (mp : Bool) (w : Nat) (skip : List String) (p : Path) (t : FSTree)
    (q : Path) (u : FSTree) (f : Path)
    (hwf : WF t) (hocc : OccursAt p t q u) (hskip : u.name ∈ skip)
    (hf : f ∈ walkFiles [] q u) :
    f ∉ walkFiles skip p t ∧
    (∀ s b, (s, b) ∈ sizeMapOf fs (walkFiles skip p t) → f ∉ b) ∧
    f ∉ candidatesOf fs (walkFiles skip p t) ∧
    (∀ res, find_duplicates fs p t skip mp w = .ok res →
      ∀ h0 g, (h0, g) ∈ res → f ∉ g) := by
  have hnw : f ∉ walkFiles skip p t :=
    skipped_not_walked skip f p t q u hocc hwf hskip hf
  refine ⟨hnw, ?_, ?_, ?_⟩
  · intro s b hb hfb
    have hpair := mem_pair_of_mem_bucket hb hfb
    exact hnw ((mem_keyed_pairs (fun p => fs.statSize1 p) _ s f).mp hpair).1
  · intro hc
    exact hnw (mem_candidatesOf fs _ f hc)
  · intro res hok h0 g hg hfg
    exact hnw (find_mem_walked fs p t skip mp w res hok h0 g hg f hfg)

/-- Skipped subdirectory of the C6 scenario: basename matches the skip set
and it contains a duplicate pair. -/
def c6Sub : FSTree := .node "themes" ["dup1.bin", "dup2.bin"] []

/-- Tree of the C6 scenario. -/
def c6Tree : FSTree := .node "root" ["x.bin"] [c6Sub]

theorem c6TreeWF : WF c6Tree := by
  refine WF.node _ _ _ (by decide) ?_
  intro s hs
  rcases List.mem_singleton.mp hs with hh
  subst hh
  refine WF.node _ _ _ (by decide) ?_
  intro s hs
  simp at hs

/-- C6 witness: the concrete scenario with skip set containing "themes". -/
theorem claim_C6_witness :
    (["root", "themes", "dup1.bin"] : Path) ∉ walkFiles ["themes"] [] c6Tree ∧
    (∀ s b, (s, b) ∈ sizeMapOf wfsPlan (walkFiles ["themes"] [] c6Tree) →
      (["root", "themes", "dup1.bin"] : Path) ∉ b) ∧
    (["root", "themes", "dup1.bin"] : Path) ∉
      candidatesOf wfsPlan (walkFiles ["themes"] [] c6Tree) ∧
    (∀ res, find_duplicates wfsPlan [] c6Tree ["themes"] false 1 = .ok res →
      ∀ h0 g, (h0, g) ∈ res → (["root", "themes", "dup1.bin"] : Path) ∉ g) :=
  claim_C6 wfsPlan false 1 ["themes"] [] c6Tree ["root"] c6Sub
    ["root", "themes", "dup1.bin"] c6TreeWF
    (OccursAt.step (List.mem_singleton.mpr rfl) (OccursAt.refl ["root"] c6Sub))
    (by decide) (by decide)

/-! ### C9: tied modification times and traversal order -/

theorem filter_flatMap_nil {K α : Type} (L : List (K × List α)) (f : α → Bool)
    (h : ∀ kb ∈ L, kb.2.filter f = []) :
    (L.flatMap (fun kb => kb.2)).filter f = [] := by
  induction L with
  | nil => simp
  | cons kb L ih =>
    rw [List.flatMap_cons, List.filter_append, h kb (List.mem_cons_self kb L),
      List.nil_append]
    exact ih (fun kb2 hkb2 => h kb2 (List.mem_cons_of_mem kb hkb2))

/-- Filtering the flattened buckets by a predicate that can only hold inside
the bucket of key k0 gives either nothing (k0 absent) or exactly the filter
of that one bucket. -/
theorem filter_flatMap_cases {K α : Type} (L : List (K × List α))
    (f : α → Bool) (k0 : K) (hnd : (L.map Prod.fst).Nodup)
    (hothers : ∀ kb ∈ L, kb.1 ≠ k0 → kb.2.filter f = []) :
    (L.flatMap (fun kb => kb.2)).filter f = [] ∨
    ∃ B, (k0, B) ∈ L ∧ (L.flatMap (fun kb => kb.2)).filter f = B.filter f := by
  induction L with
  | nil => exact Or.inl (by simp)
  | cons kb L ih =>
    rw [List.map_cons, List.nodup_cons] at hnd
    obtain ⟨hknotin, hndL⟩ := hnd
    rw [List.flatMap_cons, List.filter_append]
    by_cases hk : kb.1 = k0
    · have hLnil : (L.flatMap (fun kb => kb.2)).filter f = [] := by
        apply filter_flatMap_nil
        intro kb2 hkb2
        apply hothers kb2 (List.mem_cons_of_mem kb hkb2)
        intro hkb2k
        have heq : kb.1 = kb2.1 := hk.trans hkb2k.symm
        exact hknotin (heq ▸ List.mem_map.mpr ⟨kb2, hkb2, rfl⟩)
      rw [hLnil, List.append_nil]
      right
      refine ⟨kb.2, ?_, rfl⟩
      have hkb : kb = (k0, kb.2) := by
        obtain ⟨ka, vb⟩ := kb
        simp only at hk
        rw [hk]
      exact hkb ▸ List.mem_cons_self kb L
    · rw [hothers kb (List.mem_cons_self kb L) hk, List.nil_append]
      rcases ih hndL
          (fun kb2 h2 hne => hothers kb2 (List.mem_cons_of_mem kb h2) hne) with
        hnil | ⟨B, hB, heq⟩
      · exact Or.inl hnil
      · exact Or.inr ⟨B, List.mem_cons_of_mem kb hB, heq⟩

/-- Every group reported by a successful find_duplicates run is a surviving
bucket of the normalised phase-3 grouping over the canonical candidate
pipeline. -/
theorem find_ok_group_mem {Q H : Type} [DecidableEq Q] [DecidableEq H]
    (fs : FS Q H) (rootParent : Path) (tree : FSTree) (skip : List String)
    (mp : Bool) (w : Nat) (res : List (H × List Path))
    (hok : find_duplicates fs rootParent tree skip mp w = .ok res)
    (h0 : H) (g : List Path) (hg : (h0, g) ∈ res) :
    (h0, g) ∈ (upsertFold ((survivorsOf
        ((candidatesOf fs (walkFiles skip rootParent tree)).filterMap
          (fun p => (quickKey fs p).map (fun k => (k, p))))).filterMap
        (fun p => (fs.fullHash p).map (fun h => (h, p))))).filter
      (fun b => 1 < b.2.length) := by
  unfold find_duplicates at hok
  by_cases h1 : (candidatesOf fs (walkFiles skip rootParent tree)).isEmpty
  · rw [if_pos h1] at hok
    injection hok with hok
    rw [← hok] at hg
    simp at hg
  · rw [if_neg h1] at hok
    cases hfold : (parallel_hash (hash_file_wrapper_quick fs)
        (candidatesOf fs (walkFiles skip rootParent tree)) mp w 50).foldlM
        (quickRegroupStep fs) [] with
    | error e =>
      rw [hfold] at hok
      exact Except.noConfusion hok
    | ok qp =>
      rw [hfold] at hok
      by_cases h2 : (survivorsOf qp).isEmpty
      · rw [show ((Except.ok qp).bind (fun quickPairs =>
            if (survivorsOf quickPairs).isEmpty then (.ok [] : Except Unit (List (H × List Path)))
            else .ok (fullGroups fs (survivorsOf quickPairs) mp w))) =
            (if (survivorsOf qp).isEmpty then (.ok [] : Except Unit (List (H × List Path)))
            else .ok (fullGroups fs (survivorsOf qp) mp w)) from rfl,
          if_pos h2] at hok
        injection hok with hok
        rw [← hok] at hg
        simp at hg
      · rw [show ((Except.ok qp).bind (fun quickPairs =>
            if (survivorsOf quickPairs).isEmpty then (.ok [] : Except Unit (List (H × List Path)))
            else .ok (fullGroups fs (survivorsOf quickPairs) mp w))) =
            (if (survivorsOf qp).isEmpty then (.ok [] : Except Unit (List (H × List Path)))
            else .ok (fullGroups fs (survivorsOf qp) mp w)) from rfl,
          if_neg h2] at hok
        injection hok with hok
        rw [← hok] at hg
        rw [fullGroups_eq_map] at hg
        rw [quickPairs_spec fs _ mp w qp hfold] at hg
        exact hg

/-- Under a content-consistent filesystem with an injective full digest,
every reported duplicate group is, as a list, a chain of filters of the
traversal output: its members all share one content, hence one size bucket
and one quick bucket, and each stage preserves the input order inside one
bucket.  Consequently the group list is a sublist of the traversal order. -/
theorem group_sublist_walked {Q H : Type} [DecidableEq Q] [DecidableEq H]
    (fs : FS Q H) (walked : List Path)
    (content : Path → Option (List Byte)) (qh : List Byte → Q)
    (fh : List Byte → H) (hinj : Function.Injective fh)
    (hs1 : ∀ p, fs.statSize1 p = (content p).map List.length)
    (hs2 : ∀ p, fs.statSize2 p = (content p).map List.length)
    (hqh : ∀ p, fs.quickHash p = (content p).map (fun c => qh (c.take QUICK_HASH_SIZE)))
    (hfh : ∀ p, fs.fullHash p = (content p).map fh)
    (h0 : H) (g : List Path)
    (hgmem2 : (h0, g) ∈ upsertFold ((survivorsOf
        ((candidatesOf fs walked).filterMap
          (fun p => (quickKey fs p).map (fun k => (k, p))))).filterMap
        (fun p => (fs.fullHash p).map (fun h => (h, p)))))
    (hlen : 1 < g.length) :
    g.Sublist walked := by
  have hgchar : g = (survivorsOf
      ((candidatesOf fs walked).filterMap
        (fun p => (quickKey fs p).map (fun k => (k, p))))).filter
      (fun p => fs.fullHash p = some h0) := by
    have hh := mem_upsertFold h0 g _ hgmem2
    rw [hh]
    exact bucket_filter_of_keyed (fun p => fs.fullHash p) _ h0
  have hne : g ≠ [] := by
    intro hh
    rw [hh] at hlen
    simp at hlen
  obtain ⟨p0, hp0⟩ := List.exists_mem_of_ne_nil g hne
  have hp0f : fs.fullHash p0 = some h0 := by
    rw [hgchar] at hp0
    have := (List.mem_filter.mp hp0).2
    simpa using this
  obtain ⟨c0, hc0, hfc0⟩ : ∃ c0, content p0 = some c0 ∧ fh c0 = h0 := by
    have hcp := hfh p0
    rw [hp0f] at hcp
    cases hc : content p0 with
    | none =>
      rw [hc] at hcp
      exact Option.noConfusion hcp
    | some c =>
      rw [hc] at hcp
      rw [show Option.map fh (some c) = some (fh c) from rfl] at hcp
      injection hcp with hcp
      exact ⟨c, rfl, hcp.symm⟩
  have hcontent : ∀ p, fs.fullHash p = some h0 → content p = some c0 := by
    intro p hp
    have hcp := hfh p
    rw [hp] at hcp
    cases hc : content p with
    | none =>
      rw [hc] at hcp
      exact Option.noConfusion hcp
    | some c =>
      rw [hc] at hcp
      rw [show Option.map fh (some c) = some (fh c) from rfl] at hcp
      injection hcp with hcp
      have hcc : fh c = fh c0 := by rw [← hcp, hfc0]
      rw [hinj hcc]
  have hquickkey : ∀ p, fs.fullHash p = some h0 →
      quickKey fs p = some (c0.length, qh (c0.take QUICK_HASH_SIZE)) := by
    intro p hp
    unfold quickKey
    rw [hqh p, hs2 p, hcontent p hp]
    rfl
  have hsize1 : ∀ p, fs.fullHash p = some h0 → fs.statSize1 p = some c0.length := by
    intro p hp
    rw [hs1 p, hcontent p hp]
    rfl
  -- Stage 2: only the quick bucket of the shared content can contain
  -- members of the group.
  have hnd2 : ((((upsertFold ((candidatesOf fs walked).filterMap
      (fun p => (quickKey fs p).map (fun k => (k, p))))).filter
        (fun b => 1 < b.2.length))).map Prod.fst).Nodup := by
    have h1 := keys_upsertFold_nodup ((candidatesOf fs walked).filterMap
      (fun p => (quickKey fs p).map (fun k => (k, p))))
    have h2 : (((upsertFold ((candidatesOf fs walked).filterMap
        (fun p => (quickKey fs p).map (fun k => (k, p))))).filter
          (fun b => 1 < b.2.length)).map Prod.fst).Sublist
        ((upsertFold ((candidatesOf fs walked).filterMap
          (fun p => (quickKey fs p).map (fun k => (k, p))))).map Prod.fst) :=
      List.Sublist.map Prod.fst (List.filter_sublist _)
    exact List.Nodup.sublist h2 h1
  have hoth2 : ∀ kb ∈ (upsertFold ((candidatesOf fs walked).filterMap
      (fun p => (quickKey fs p).map (fun k => (k, p))))).filter
        (fun b => 1 < b.2.length),
      kb.1 ≠ (c0.length, qh (c0.take QUICK_HASH_SIZE)) →
      kb.2.filter (fun p => fs.fullHash p = some h0) = [] := by
    intro kb hkb hkne
    rw [List.filter_eq_nil_iff]
    intro x hxkb hxf
    have hxf2 : fs.fullHash x = some h0 := by simpa using hxf
    have hkbmem : kb ∈ upsertFold ((candidatesOf fs walked).filterMap
        (fun p => (quickKey fs p).map (fun k => (k, p)))) :=
      List.mem_of_mem_filter hkb
    have hpair : (kb.1, x) ∈ (candidatesOf fs walked).filterMap
        (fun p => (quickKey fs p).map (fun k => (k, p))) := by
      obtain ⟨ka, vb⟩ := kb
      exact mem_pair_of_mem_bucket hkbmem hxkb
    have hxkey := ((mem_keyed_pairs (fun p => quickKey fs p) _ kb.1 x).mp hpair).2
    rw [hquickkey x hxf2] at hxkey
    injection hxkey with hxkey
    exact hkne hxkey.symm
  have hstep2 := filter_flatMap_cases
    ((upsertFold ((candidatesOf fs walked).filterMap
        (fun p => (quickKey fs p).map (fun k => (k, p))))).filter
      (fun b => 1 < b.2.length))
    (fun p => decide (fs.fullHash p = some h0))
    (c0.length, qh (c0.take QUICK_HASH_SIZE)) hnd2 hoth2
  rcases hstep2 with hnil2 | ⟨B, hBmem, hBeq⟩
  · exfalso
    rw [show (survivorsOf ((candidatesOf fs walked).filterMap
        (fun p => (quickKey fs p).map (fun k => (k, p))))).filter
        (fun p => fs.fullHash p = some h0) = [] from hnil2] at hgchar
    rw [hgchar] at hlen
    simp at hlen
  · -- the quick bucket B is a filter of the candidates
    have hBchar : B = (candidatesOf fs walked).filter
        (fun p => quickKey fs p = some (c0.length, qh (c0.take QUICK_HASH_SIZE))) := by
      have hBmem2 : ((c0.length, qh (c0.take QUICK_HASH_SIZE)), B) ∈
          upsertFold ((candidatesOf fs walked).filterMap
            (fun p => (quickKey fs p).map (fun k => (k, p)))) :=
        List.mem_of_mem_filter hBmem
      have hh := mem_upsertFold _ B _ hBmem2
      rw [hh]
      exact bucket_filter_of_keyed (fun p => quickKey fs p) _ _
    have hgchar2 : g = ((candidatesOf fs walked).filter
        (fun p => quickKey fs p = some (c0.length, qh (c0.take QUICK_HASH_SIZE)))).filter
        (fun p => fs.fullHash p = some h0) := by
      rw [hgchar]
      rw [show (survivorsOf ((candidatesOf fs walked).filterMap
          (fun p => (quickKey fs p).map (fun k => (k, p))))).filter
          (fun p => fs.fullHash p = some h0) = B.filter
          (fun p => decide (fs.fullHash p = some h0)) from hBeq]
      rw [hBchar]
    -- Stage 1: only the size bucket of the shared content can contain
    -- members of the quick bucket of the shared content.
    rw [List.filter_filter] at hgchar2
    have hnd1 : (((upsertFold (scanPairs fs walked)).filter
        (fun b => 1 < b.2.length)).map Prod.fst).Nodup := by
      have h1 := keys_upsertFold_nodup (scanPairs fs walked)
      have h2 : (((upsertFold (scanPairs fs walked)).filter
          (fun b => 1 < b.2.length)).map Prod.fst).Sublist
          ((upsertFold (scanPairs fs walked)).map Prod.fst) :=
        List.Sublist.map Prod.fst (List.filter_sublist _)
      exact List.Nodup.sublist h2 h1
    have hoth1 : ∀ kb ∈ (upsertFold (scanPairs fs walked)).filter
        (fun b => 1 < b.2.length),
        kb.1 ≠ c0.length →
        kb.2.filter (fun a => decide (fs.fullHash a = some h0) &&
          decide (quickKey fs a = some (c0.length, qh (c0.take QUICK_HASH_SIZE)))) = [] := by
      intro kb hkb hkne
      rw [List.filter_eq_nil_iff]
      intro x hxkb hxf
      have hxf2 : fs.fullHash x = some h0 := by
        have := (Bool.and_eq_true _ _).mp hxf
        simpa using this.1
      have hkbmem : kb ∈ upsertFold (scanPairs fs walked) :=
        List.mem_of_mem_filter hkb
      have hpair : (kb.1, x) ∈ scanPairs fs walked := by
        obtain ⟨ka, vb⟩ := kb
        exact mem_pair_of_mem_bucket hkbmem hxkb
      have hxkey := ((mem_keyed_pairs (fun p => fs.statSize1 p) _ kb.1 x).mp hpair).2
      rw [hsize1 x hxf2] at hxkey
      injection hxkey with hxkey
      exact hkne hxkey.symm
    have hstep1 := filter_flatMap_cases
      ((upsertFold (scanPairs fs walked)).filter (fun b => 1 < b.2.length))
      (fun a => decide (fs.fullHash a = some h0) &&
        decide (quickKey fs a = some (c0.length, qh (c0.take QUICK_HASH_SIZE))))
      c0.length hnd1 hoth1
    rcases hstep1 with hnil1 | ⟨S, hSmem, hSeq⟩
    · exfalso
      rw [show (candidatesOf fs walked).filter
          (fun a => decide (fs.fullHash a = some h0) &&
            decide (quickKey fs a = some (c0.length, qh (c0.take QUICK_HASH_SIZE)))) = []
          from hnil1] at hgchar2
      rw [hgchar2] at hlen
      simp at hlen
    · have hSchar : S = walked.filter (fun p => fs.statSize1 p = some c0.length) := by
        have hSmem2 : (c0.length, S) ∈ upsertFold (scanPairs fs walked) :=
          List.mem_of_mem_filter hSmem
        have hh := mem_upsertFold _ S _ hSmem2
        rw [hh]
        exact bucket_filter_of_keyed (fun p => fs.statSize1 p) _ _
      have hgchar3 : g = (walked.filter
          (fun p => fs.statSize1 p = some c0.length)).filter
          (fun a => decide (fs.fullHash a = some h0) &&
            decide (quickKey fs a = some (c0.length, qh (c0.take QUICK_HASH_SIZE)))) := by
        rw [hgchar2]
        rw [show (candidatesOf fs walked).filter
            (fun a => decide (fs.fullHash a = some h0) &&
              decide (quickKey fs a = some (c0.length, qh (c0.take QUICK_HASH_SIZE)))) =
            S.filter (fun a => decide (fs.fullHash a = some h0) &&
              decide (quickKey fs a = some (c0.length, qh (c0.take QUICK_HASH_SIZE))))
            from hSeq]
        rw [hSchar]
      rw [hgchar3]
      exact List.Sublist.trans (List.filter_sublist _) (List.filter_sublist _)

/-- C9.  Under a content-consistent filesystem whose full digest is
injective (the digest-as-content-equality trust of the design), every
duplicate group reported by find_duplicates lists its members in traversal
order (it is a sublist of the walk output: traversal order survives the
parallel hashing and both regroupings), and the planner sort is stable (its
restriction to any single modification time equals the group list
restricted to that time), so members with identical modification
timestamps keep their traversal order in the deletion plan. -/
theorem claim_C9 {Q H : Type} [DecidableEq Q] [DecidableEq H]
    (fs : FS Q H) (rootParent : Path) (tree : FSTree) (skip : List String)
    (mp : Bool) (w : Nat) (res : List (H × List Path))
    (content : Path → Option (List Byte)) (qh : List Byte → Q)
    (fh : List Byte → H) (hinj : Function.Injective fh)
    (hs1 : ∀ p, fs.statSize1 p = (content p).map List.length)
    (hs2 : ∀ p, fs.statSize2 p = (content p).map List.length)
    (hqh : ∀ p, fs.quickHash p = (content p).map (fun c => qh (c.take QUICK_HASH_SIZE)))
    (hfh : ∀ p, fs.fullHash p = (content p).map fh)
    (hok : find_duplicates fs rootParent tree skip mp w = .ok res)
    (h0 : H) (g : List Path) (hg : (h0, g) ∈ res) :
    g.Sublist (walkFiles skip rootParent tree) ∧
    ∀ a, (sortedByAge fs g).filter (fun z => get_file_age fs z = a) =
      g.filter (fun z => get_file_age fs z = a) := by
  refine ⟨?_, ?_⟩
  · have hmem := find_ok_group_mem fs rootParent tree skip mp w res hok h0 g hg
    obtain ⟨hgmem2, hlenb⟩ := List.mem_filter.mp hmem
    have hlen : 1 < g.length := by simpa using hlenb
    exact group_sublist_walked fs _ content qh fh hinj hs1 hs2 hqh hfh h0 g hgmem2 hlen
  · intro a
    unfold sortedByAge
    exact filter_sortByKey (get_file_age fs) a g

/-- Content oracle of the C9 scenario: a.bin and b.bin are byte-identical,
c.bin differs. -/
def c9content : Path → Option (List Byte) := fun p =>
  if p = ["r", "a.bin"] then some [1, 2]
  else if p = ["r", "b.bin"] then some [1, 2]
  else if p = ["r", "c.bin"] then some [9]
  else none

/-- Tree of the C9 scenario. -/
def c9Tree : FSTree := .node "r" ["a.bin", "b.bin", "c.bin"] []

/-- Content-consistent filesystem of the C9 scenario; both duplicates share
the modification time 5 (a tie). -/
def c9fs : FS (List Byte) (List Byte) where
  statSize1 := fun p => (c9content p).map List.length
  quickHash := fun p => (c9content p).map (fun c => c.take QUICK_HASH_SIZE)
  statSize2 := fun p => (c9content p).map List.length
  fullHash := fun p => (c9content p).map (fun c => c)
  mtime := fun _ => some 5
  statSize3 := fun p => (c9content p).map List.length

/-- C9 witness: the concrete tied-timestamp duplicate pair. -/
theorem claim_C9_witness :
    ([["r", "a.bin"], ["r", "b.bin"]] : List Path).Sublist (walkFiles [] [] c9Tree) ∧
    ∀ a, (sortedByAge c9fs [["r", "a.bin"], ["r", "b.bin"]]).filter
        (fun z => get_file_age c9fs z = a) =
      ([["r", "a.bin"], ["r", "b.bin"]] : List Path).filter
        (fun z => get_file_age c9fs z = a) :=
  claim_C9 c9fs [] c9Tree [] false 1 [([1, 2], [["r", "a.bin"], ["r", "b.bin"]])]
    c9content (fun c => c) (fun c => c) (fun a b h => h)
    (fun p => rfl) (fun p => rfl) (fun p => rfl) (fun p => rfl)
    (by rfl) [1, 2] [["r", "a.bin"], ["r", "b.bin"]] (by decide)

/-- C1 is refuted by the code: a per-file I/O error CAN escape
find_duplicates.  b.bin is readable during phase 1 (stat succeeds) and its
quick hash succeeds, but the bare path.stat() of the phase-2 regroup loop
(line 220, not wrapped in try/except) fails, and the resulting OSError
escapes find_duplicates, aborting the scan instead of dropping the file. -/
theorem claim_C1 :
    c1fs.statSize1 ["r", "b.bin"] = some 5 ∧
    c1fs.quickHash ["r", "b.bin"] = some 7 ∧
    c1fs.statSize2 ["r", "b.bin"] = none ∧
    find_duplicates c1fs [] c1Tree [] false 1 = .error () :=
  ⟨rfl, rfl, by decide, by rfl⟩

end DC
